import Mathlib

/-!
Verification of the `VarianceEstimator` core of the monte-carlo-integration
repository (src/variance_estimator.rs), embedded shallowly over exact
rational arithmetic.  The Rust `f64` fields are modelled as `ℚ` (the claims
are all stated in exact real arithmetic, up to floating-point rounding) and
the `i64` sample counter as `ℤ`.  Division follows Lean's convention
`x / 0 = 0`; every division the reachable states perform has a nonzero
divisor, which is proved where relevant.
-/

/-- Shallow embedding of the Rust struct `VarianceEstimator`
(fields `mean: f64`, `sum_square_differences: f64`, `sample_count: i64`). -/
structure VarianceEstimator where
  mean : ℚ
  sum_square_differences : ℚ
  sample_count : ℤ
deriving DecidableEq

namespace VarianceEstimator

/-- Rust `VarianceEstimator::new`: the all-zero estimator. -/
def new : VarianceEstimator :=
  { mean := 0, sum_square_differences := 0, sample_count := 0 }

/-- Rust `VarianceEstimator::add_sample`: Welford single-sample update, in the
source's evaluation order (count is incremented first; `delta` is computed
from the old mean, `delta2` from the updated mean). -/
def add_sample (e : VarianceEstimator) (x : ℚ) : VarianceEstimator :=
  let sample_count := e.sample_count + 1
  let delta := x - e.mean
  let mean := e.mean + delta / (sample_count : ℚ)
  let delta2 := x - mean
  { mean := mean,
    sum_square_differences := e.sum_square_differences + delta * delta2,
    sample_count := sample_count }

/-- Rust `VarianceEstimator::variance`: unbiased sample variance, `0` for at most
one sample.  The subtraction `sample_count - 1` happens on the integer
counter before the cast, as in `(self.sample_count - 1) as f64`. -/
def variance (e : VarianceEstimator) : ℚ :=
  if 1 < e.sample_count then
    e.sum_square_differences / ((e.sample_count - 1 : ℤ) : ℚ)
  else 0

/-- Rust `VarianceEstimator::relative_variance`. -/
def relative_variance (e : VarianceEstimator) : ℚ :=
  if e.sample_count < 1 ∨ e.mean = 0 then 0
  else e.variance / e.mean

/-- Rust `VarianceEstimator::merge`: Chan's parallel combination rule, with the
source's single early return for an empty right operand. -/
def merge (lhs rhs : VarianceEstimator) : VarianceEstimator :=
  if rhs.sample_count = 0 then lhs
  else
    let left_sample_count_q : ℚ := (lhs.sample_count : ℚ)
    let right_sample_count_q : ℚ := (rhs.sample_count : ℚ)
    let sample_count := lhs.sample_count + rhs.sample_count
    let sqr_mean_diff := (rhs.mean - lhs.mean) * (rhs.mean - lhs.mean)
    let sum_square_differences := lhs.sum_square_differences
      + rhs.sum_square_differences
      + sqr_mean_diff * left_sample_count_q * right_sample_count_q
        / (sample_count : ℚ)
    let mean := (left_sample_count_q * lhs.mean + right_sample_count_q * rhs.mean)
      / (sample_count : ℚ)
    { mean := mean,
      sum_square_differences := sum_square_differences,
      sample_count := sample_count }

/-- Folding a list of samples into a fresh estimator via `add_sample`,
as the driver and the tests do. -/
def fromSamples (xs : List ℚ) : VarianceEstimator :=
  xs.foldl add_sample new

/-- Estimators reachable through the public constructors of the type:
`new`, `add_sample` and `merge`. -/
inductive Reachable : VarianceEstimator → Prop where
  | new : Reachable new
  | add_sample {e : VarianceEstimator} (he : Reachable e) (x : ℚ) :
      Reachable (e.add_sample x)
  | merge {a b : VarianceEstimator} (ha : Reachable a) (hb : Reachable b) :
      Reachable (merge a b)

end VarianceEstimator

open VarianceEstimator

/-- Sum of the squares of a list of samples. -/
def sumSq (xs : List ℚ) : ℚ :=
  (xs.map fun x => x * x).sum

/-- The closed-form statistics of a list of samples: its exact mean
(`0` for the empty list, by the convention `0 / 0 = 0`), the exact sum of
squared deviations from that mean in the form `Σx² − (Σx)²/n`, and its
length.  `fromSamples` is proved to compute exactly this. -/
def specOf (xs : List ℚ) : VarianceEstimator :=
  { mean := xs.sum / (xs.length : ℚ),
    sum_square_differences := sumSq xs - xs.sum * xs.sum / (xs.length : ℚ),
    sample_count := (xs.length : ℤ) }

theorem specOf_nil : specOf [] = new := by
  simp [specOf, sumSq, new]

theorem sumSq_append (xs ys : List ℚ) : sumSq (xs ++ ys) = sumSq xs + sumSq ys := by
  simp [sumSq]

theorem sumSq_singleton (x : ℚ) : sumSq [x] = x * x := by
  simp [sumSq]

/-- Unfolded form of `merge` when the right operand is non-empty. -/
theorem merge_def_of_nonzero (lhs rhs : VarianceEstimator)
    (h : rhs.sample_count ≠ 0) :
    merge lhs rhs =
      { mean := ((lhs.sample_count : ℚ) * lhs.mean + (rhs.sample_count : ℚ) * rhs.mean)
          / ((lhs.sample_count + rhs.sample_count : ℤ) : ℚ),
        sum_square_differences := lhs.sum_square_differences
          + rhs.sum_square_differences
          + (rhs.mean - lhs.mean) * (rhs.mean - lhs.mean) * (lhs.sample_count : ℚ)
            * (rhs.sample_count : ℚ) / ((lhs.sample_count + rhs.sample_count : ℤ) : ℚ),
        sample_count := lhs.sample_count + rhs.sample_count } := by
  simp [merge, h]

/-- Merging with an empty right operand returns the left operand: the
source's explicit guard. -/
theorem merge_new_right (e : VarianceEstimator) : merge e new = e := rfl

/-- Merging with the empty estimator on the left returns the right operand
whenever the latter is non-empty, through the general combination formula
(no guard is needed: no `0/0` arises because the total count is nonzero). -/
theorem merge_new_left (e : VarianceEstimator) (h : e.sample_count ≠ 0) :
    merge new e = e := by
  rw [merge_def_of_nonzero _ _ h]
  obtain ⟨m, s, c⟩ := e
  have hq : ((c : ℤ) : ℚ) ≠ 0 := Int.cast_ne_zero.mpr h
  simp only [new, VarianceEstimator.mk.injEq]
  push_cast at hq ⊢
  refine ⟨?_, ?_, by ring⟩
  · field_simp
  · field_simp

theorem add_sample_specOf (xs : List ℚ) (x : ℚ) :
    (specOf xs).add_sample x = specOf (xs ++ [x]) := by
  rcases xs with _ | ⟨y, ys⟩
  · simp only [specOf, add_sample, sumSq, List.nil_append, List.map_cons,
      List.map_nil, List.sum_cons, List.sum_nil, List.length_nil, List.length_cons,
      VarianceEstimator.mk.injEq]
    norm_num
  · have hlen : ((y :: ys).length : ℚ) ≠ 0 :=
      Nat.cast_ne_zero.mpr (by simp)
    have hlen1 : ((y :: ys).length : ℚ) + 1 ≠ 0 := by
      have : (0 : ℚ) < ((y :: ys).length : ℚ) + 1 := by positivity
      exact ne_of_gt this
    simp only [specOf, add_sample, sumSq_append, sumSq_singleton, List.sum_append,
      List.length_append, List.length_singleton, List.sum_singleton,
      VarianceEstimator.mk.injEq]
    push_cast
    set n : ℚ := ((y :: ys).length : ℚ) with hn
    set S : ℚ := (y :: ys).sum with hS
    set Q : ℚ := sumSq (y :: ys) with hQ
    refine ⟨?_, ?_, by ring⟩
    · field_simp
      ring
    · field_simp
      ring

theorem fromSamples_append_singleton (xs : List ℚ) (x : ℚ) :
    fromSamples (xs ++ [x]) = (fromSamples xs).add_sample x := by
  simp [fromSamples, List.foldl_append]

theorem fromSamples_eq_specOf (xs : List ℚ) : fromSamples xs = specOf xs := by
  induction xs using List.reverseRecOn with
  | nil => rw [specOf_nil]; rfl
  | append_singleton ys y ih =>
      rw [fromSamples_append_singleton, ih, add_sample_specOf]

theorem specOf_sample_count (xs : List ℚ) :
    (specOf xs).sample_count = (xs.length : ℤ) := rfl

theorem merge_specOf (xs ys : List ℚ) :
    merge (specOf xs) (specOf ys) = specOf (xs ++ ys) := by
  rcases ys with _ | ⟨z, zs⟩
  · rw [List.append_nil, specOf_nil, merge_new_right]
  · have hr : (specOf (z :: zs)).sample_count ≠ 0 := by
      rw [specOf_sample_count]
      simp only [List.length_cons]
      push_cast
      omega
    rcases xs with _ | ⟨w, ws⟩
    · rw [List.nil_append, specOf_nil, merge_new_left _ hr]
    · have hrq : (((z :: zs).length : ℕ) : ℚ) ≠ 0 :=
        Nat.cast_ne_zero.mpr (by simp)
      have hlq : (((w :: ws).length : ℕ) : ℚ) ≠ 0 :=
        Nat.cast_ne_zero.mpr (by simp)
      have hsq : (((w :: ws).length : ℚ) + ((z :: zs).length : ℚ)) ≠ 0 := by
        have h1 : (0 : ℚ) < ((w :: ws).length : ℚ) := by
          exact_mod_cast Nat.pos_of_ne_zero (by simp)
        have h2 : (0 : ℚ) ≤ ((z :: zs).length : ℚ) := by positivity
        linarith
      rw [merge_def_of_nonzero _ _ hr]
      simp only [specOf, sumSq_append, List.sum_append, List.length_append,
        VarianceEstimator.mk.injEq]
      push_cast
      set nl : ℚ := ((w :: ws).length : ℚ) with hnl
      set nr : ℚ := ((z :: zs).length : ℚ) with hnr
      set Sl : ℚ := (w :: ws).sum with hSl
      set Sr : ℚ := (z :: zs).sum with hSr
      set Ql : ℚ := sumSq (w :: ws) with hQl
      set Qr : ℚ := sumSq (z :: zs) with hQr
      refine ⟨?_, ?_, by ring⟩
      · field_simp
      · field_simp
        ring

theorem specOf_append_comm (xs ys : List ℚ) :
    specOf (xs ++ ys) = specOf (ys ++ xs) := by
  simp only [specOf, sumSq_append, List.sum_append, List.length_append,
    VarianceEstimator.mk.injEq]
  push_cast
  refine ⟨by ring_nf, by ring_nf, by ring⟩

/-- Invariant of all reachable estimators: the sample count is non-negative,
the sum of squared differences is non-negative, and the only reachable state
with zero samples is the all-zero state `new`. -/
theorem reachable_invariant {e : VarianceEstimator} (he : Reachable e) :
    0 ≤ e.sample_count ∧ 0 ≤ e.sum_square_differences ∧
      (e.sample_count = 0 → e = new) := by
  induction he with
  | new => exact ⟨le_refl 0, le_refl 0, fun _ => rfl⟩
  | add_sample he x ih =>
      obtain ⟨hc, hs, _⟩ := ih
      rename_i e _
      refine ⟨?_, ?_, ?_⟩
      · simp only [add_sample]
        omega
      · simp only [add_sample]
        have hc1 : (0 : ℚ) < ((e.sample_count : ℤ) : ℚ) + 1 := by
          have : (0 : ℚ) ≤ ((e.sample_count : ℤ) : ℚ) := by exact_mod_cast hc
          linarith
        have hc1' : ((e.sample_count + 1 : ℤ) : ℚ) = ((e.sample_count : ℤ) : ℚ) + 1 := by
          push_cast
          ring
        have key : (x - e.mean) *
            (x - (e.mean + (x - e.mean) / (((e.sample_count : ℤ) : ℚ) + 1)))
            = (x - e.mean) * (x - e.mean) * ((e.sample_count : ℤ) : ℚ)
              / (((e.sample_count : ℤ) : ℚ) + 1) := by
          field_simp
          ring
        rw [hc1']
        rw [key]
        have hterm : 0 ≤ (x - e.mean) * (x - e.mean) * ((e.sample_count : ℤ) : ℚ)
            / (((e.sample_count : ℤ) : ℚ) + 1) := by
          apply div_nonneg
          · apply mul_nonneg (mul_self_nonneg _)
            exact_mod_cast hc
          · linarith
        linarith
      · simp only [add_sample]
        omega
  | merge ha hb iha ihb =>
      obtain ⟨hca, hsa, hza⟩ := iha
      obtain ⟨hcb, hsb, hzb⟩ := ihb
      rename_i a b
      by_cases hb0 : b.sample_count = 0
      · rw [show VarianceEstimator.merge a b = a by simp [merge, hb0]]
        exact ⟨hca, hsa, hza⟩
      · rw [merge_def_of_nonzero _ _ hb0]
        refine ⟨by simp; omega, ?_, by simp; omega⟩
        have hqa : (0 : ℚ) ≤ ((a.sample_count : ℤ) : ℚ) := by exact_mod_cast hca
        have hqb : (0 : ℚ) ≤ ((b.sample_count : ℤ) : ℚ) := by exact_mod_cast hcb
        have hqab : (0 : ℚ) ≤ ((a.sample_count + b.sample_count : ℤ) : ℚ) := by
          push_cast
          linarith
        have hterm : 0 ≤ (b.mean - a.mean) * (b.mean - a.mean)
            * ((a.sample_count : ℤ) : ℚ) * ((b.sample_count : ℤ) : ℚ)
            / ((a.sample_count + b.sample_count : ℤ) : ℚ) := by
          apply div_nonneg _ hqab
          exact mul_nonneg (mul_nonneg (mul_self_nonneg _) hqa) hqb
        simp only
        linarith

/-- C1: merging the estimators obtained by folding `xs` and `ys` separately
into fresh estimators equals (in exact arithmetic) the estimator obtained by
folding the concatenation `xs ++ ys` sequentially: all three fields `mean`,
`sum_square_differences` and `sample_count` agree. -/
theorem merge_eq_fromSamples_append (xs ys : List ℚ) :
    merge (fromSamples xs) (fromSamples ys) = fromSamples (xs ++ ys) := by
  rw [fromSamples_eq_specOf, fromSamples_eq_specOf, fromSamples_eq_specOf,
    merge_specOf]

/-- C3: after folding a non-empty list of samples into a fresh estimator,
the `mean` field equals the exact arithmetic mean: the sum of the samples
divided by their count. -/
theorem fromSamples_mean_eq_average (xs : List ℚ) (h : xs ≠ []) :
    (fromSamples xs).mean = xs.sum / (xs.length : ℚ) := by
  rw [fromSamples_eq_specOf]
  rfl

/-- Witness for C3 on the concrete sample list `[1, 2, 6]`. -/
theorem fromSamples_mean_eq_average_witness :
    ([1, 2, 6] : List ℚ) ≠ [] ∧
    (fromSamples [1, 2, 6]).mean
      = ([1, 2, 6] : List ℚ).sum / ((([1, 2, 6] : List ℚ).length : ℕ) : ℚ) :=
  ⟨by decide, fromSamples_mean_eq_average [1, 2, 6] (by decide)⟩

/-- C4: on estimators built from sample lists, `merge` is associative and
commutative, and merging the three partial estimators yields exactly the
estimator built from the union (concatenation) of all the samples. -/
theorem merge_assoc_comm_of_fromSamples (xs ys zs : List ℚ) :
    merge (merge (fromSamples xs) (fromSamples ys)) (fromSamples zs)
      = merge (fromSamples xs) (merge (fromSamples ys) (fromSamples zs)) ∧
    merge (fromSamples xs) (fromSamples ys) = merge (fromSamples ys) (fromSamples xs) ∧
    merge (merge (fromSamples xs) (fromSamples ys)) (fromSamples zs)
      = fromSamples (xs ++ ys ++ zs) := by
  simp only [fromSamples_eq_specOf, merge_specOf, List.append_assoc]
  exact ⟨trivial, specOf_append_comm xs ys, trivial⟩

/-- C5: the empty estimator is a two-sided identity for `merge` on every
reachable estimator; the left-empty direction goes through the general
combination formula (there is no `n_l == 0` guard) and never divides `0/0`,
because the only reachable zero-count state is `new` itself. -/
theorem merge_empty_two_sided_identity {e : VarianceEstimator} (he : Reachable e) :
    merge e new = e ∧ merge new e = e := by
  refine ⟨merge_new_right e, ?_⟩
  by_cases h : e.sample_count = 0
  · rw [(reachable_invariant he).2.2 h]
    exact merge_new_right new
  · exact merge_new_left e h

/-- Witness for C5 at the reachable single-sample estimator
`add_sample new 2`. -/
theorem merge_empty_two_sided_identity_witness :
    merge (new.add_sample 2) new = new.add_sample 2 ∧
    merge new (new.add_sample 2) = new.add_sample 2 :=
  merge_empty_two_sided_identity (Reachable.add_sample Reachable.new 2)

/-- C8: in exact arithmetic, `sum_square_differences ≥ 0` holds for every
estimator reachable from `new` via any sequence of `add_sample` and `merge`
operations. -/
theorem ssd_nonneg_of_reachable {e : VarianceEstimator} (he : Reachable e) :
    0 ≤ e.sum_square_differences :=
  (reachable_invariant he).2.1

/-- Witness for C8 at the reachable estimator built by adding samples
`3` and `7` and merging with a single-sample estimator. -/
theorem ssd_nonneg_of_reachable_witness :
    0 ≤ (merge ((new.add_sample 3).add_sample 7) (new.add_sample 5)).sum_square_differences :=
  ssd_nonneg_of_reachable
    (Reachable.merge
      (Reachable.add_sample (Reachable.add_sample Reachable.new 3) 7)
      (Reachable.add_sample Reachable.new 5))

/-- C9: for every reachable estimator, `sample_count = 0` implies
`mean = 0` and `sum_square_differences = 0`. -/
theorem zero_count_zero_state {e : VarianceEstimator} (he : Reachable e)
    (h : e.sample_count = 0) :
    e.mean = 0 ∧ e.sum_square_differences = 0 := by
  rw [(reachable_invariant he).2.2 h]
  exact ⟨rfl, rfl⟩

/-- Witness for C9 at the reachable zero-count estimator `merge new new`. -/
theorem zero_count_zero_state_witness :
    (merge new new).sample_count = 0 ∧
    (merge new new).mean = 0 ∧ (merge new new).sum_square_differences = 0 :=
  ⟨by decide,
   zero_count_zero_state (Reachable.merge Reachable.new Reachable.new) (by decide)⟩

/-- C2: `add_sample` performs exactly Welford's one-pass update in the
specified order: `n' = n + 1`, `delta = x - mean`, `mean' = mean + delta / n'`,
`delta2 = x - mean'`, `M2' = M2 + delta * delta2`, and changes no other
field. -/
theorem add_sample_is_welford_update (e : VarianceEstimator) (x : ℚ) :
    e.add_sample x =
      { mean := e.mean + (x - e.mean) / ((e.sample_count + 1 : ℤ) : ℚ),
        sum_square_differences := e.sum_square_differences +
          (x - e.mean) *
            (x - (e.mean + (x - e.mean) / ((e.sample_count + 1 : ℤ) : ℚ))),
        sample_count := e.sample_count + 1 } := rfl

/-- C6: `variance` returns `M2 / (n - 1)` when `sample_count > 1` (and the
divisor is then nonzero, so no division by zero is ever performed), and
returns `0` when `sample_count ≤ 1`.  It is a total pure function of the
state. -/
theorem variance_total_spec (e : VarianceEstimator) :
    (1 < e.sample_count →
      e.variance = e.sum_square_differences / ((e.sample_count - 1 : ℤ) : ℚ) ∧
      ((e.sample_count - 1 : ℤ) : ℚ) ≠ 0) ∧
    (e.sample_count ≤ 1 → e.variance = 0) := by
  constructor
  · intro h
    refine ⟨by simp [variance, h], ?_⟩
    have : e.sample_count - 1 ≠ 0 := by omega
    exact_mod_cast this
  · intro h
    simp [variance]
    omega

/-- Witness for C6 at the concrete states `⟨0, 4, 3⟩` and `⟨0, 0, 1⟩`. -/
theorem variance_total_spec_witness :
    ((VarianceEstimator.mk 0 4 3).variance
        = (VarianceEstimator.mk 0 4 3).sum_square_differences
          / (((VarianceEstimator.mk 0 4 3).sample_count - 1 : ℤ) : ℚ) ∧
      (((VarianceEstimator.mk 0 4 3).sample_count - 1 : ℤ) : ℚ) ≠ 0) ∧
    (VarianceEstimator.mk 0 0 1).variance = 0 :=
  ⟨(variance_total_spec ⟨0, 4, 3⟩).1 (by decide),
   (variance_total_spec ⟨0, 0, 1⟩).2 (by decide)⟩

/-- C7: `relative_variance` returns `variance / mean` when `sample_count ≥ 1`
and `mean ≠ 0`, and returns `0` otherwise; it is a total pure function that
never divides by a zero mean. -/
theorem relative_variance_total_spec (e : VarianceEstimator) :
    (1 ≤ e.sample_count ∧ e.mean ≠ 0 →
      e.relative_variance = e.variance / e.mean) ∧
    (e.sample_count < 1 ∨ e.mean = 0 → e.relative_variance = 0) := by
  constructor
  · rintro ⟨h1, h2⟩
    simp [relative_variance, h2]
    omega
  · intro h
    simp [relative_variance, h]

/-- Witness for C7 at the concrete states `⟨5, 4, 3⟩` and `⟨0, 4, 3⟩`. -/
theorem relative_variance_total_spec_witness :
    (VarianceEstimator.mk 5 4 3).relative_variance
        = (VarianceEstimator.mk 5 4 3).variance / (VarianceEstimator.mk 5 4 3).mean ∧
    (VarianceEstimator.mk 0 4 3).relative_variance = 0 :=
  ⟨(relative_variance_total_spec ⟨5, 4, 3⟩).1 (by decide),
   (relative_variance_total_spec ⟨0, 4, 3⟩).2 (by decide)⟩

/-- C10: whenever `sample_count ≤ 1`, `relative_variance` returns `0`
regardless of the value of `mean` — even when `mean ≠ 0` — because
`variance` is `0` for at most one sample. -/
theorem relative_variance_zero_of_at_most_one_sample
    (e : VarianceEstimator) (h : e.sample_count ≤ 1) :
    e.relative_variance = 0 := by
  rcases lt_or_ge e.sample_count 1 with hlt | hge
  · simp [relative_variance, hlt]
  · have hone : e.sample_count = 1 := le_antisymm h hge
    by_cases hm : e.mean = 0
    · simp [relative_variance, hm]
    · have hv : e.variance = 0 := by simp [variance, hone]
      simp [relative_variance, hm, hv, hone]

/-- Witness for C10 at the single-sample state `⟨5, 7, 1⟩`, whose mean is
nonzero. -/
theorem relative_variance_zero_of_at_most_one_sample_witness :
    (VarianceEstimator.mk 5 7 1).sample_count ≤ 1 ∧
    (VarianceEstimator.mk 5 7 1).mean ≠ 0 ∧
    (VarianceEstimator.mk 5 7 1).relative_variance = 0 :=
  ⟨by decide, by decide,
   relative_variance_zero_of_at_most_one_sample ⟨5, 7, 1⟩ (by decide)⟩
